import Mathlib

/-!
Shallow embedding of the bounded lock-free ring buffer implemented in
`src/deque lock-free/lock_free_deque.rs`, together with proofs of the
specification's claims about it.

The Rust structure `LockFreeDeque<T>` holds a fixed slot array
`buffer: Vec<UnsafeCell<Option<T>>>`, two `AtomicUsize` logical counters
`head` and `tail`, and the immutable `capacity`.  The counters are modelled
as unbounded naturals (`usize` subtraction `tail - head` is modelled as
truncated natural subtraction; on the reachable states, where `head ≤ tail`
holds, the two semantics agree, and `len` uses `saturating_sub` which is
exactly natural subtraction).  The sequential semantics of `push_back` and
`pop_front` is the source's success path: the emptiness/fullness check,
then the (sequentially always successful) CAS on the counter, then the slot
access.  The CAS-before-write decomposition of `push_back` is additionally
exposed as the two separate steps `push_claim` and `push_write`, exactly as
they occur in the source, so that interleavings of a producer mid-`push_back`
with a complete consumer `pop_front` can be examined.
-/

/-- State of `LockFreeDeque<T>`: slot array, the two logical counters, and
the fixed capacity. -/
structure LockFreeDeque (α : Type) where
  buffer : List (Option α)
  head : Nat
  tail : Nat
  capacity : Nat
deriving Repr, DecidableEq

variable {α : Type}

/-- `LockFreeDeque::with_capacity`: `capacity` slots all initialised to
`None`, with `head = tail = 0`. -/
def with_capacity (α : Type) (capacity : Nat) : LockFreeDeque α :=
  { buffer := List.replicate capacity none
    head := 0
    tail := 0
    capacity := capacity }

/-- Sequential semantics of `push_back`: load `tail` and `head`, return
`Err(value)` when `tail - head >= capacity`; otherwise the CAS
`tail -> tail + 1` succeeds and the value is written into slot
`tail % capacity`. -/
def push_back (s : LockFreeDeque α) (value : α) : LockFreeDeque α × Except α Unit :=
  if s.capacity ≤ s.tail - s.head then
    (s, Except.error value)
  else
    ({ s with
        tail := s.tail + 1
        buffer := s.buffer.set (s.tail % s.capacity) (some value) },
     Except.ok ())

/-- Sequential semantics of `pop_front`: load `head` and `tail`, return
`None` when `head >= tail`; otherwise the CAS `head -> head + 1` succeeds
and the slot at `head % capacity` is `take()`n: its contents are returned
and the slot is left `None`. -/
def pop_front (s : LockFreeDeque α) : LockFreeDeque α × Option α :=
  if s.tail ≤ s.head then
    (s, none)
  else
    ({ s with
        head := s.head + 1
        buffer := s.buffer.set (s.head % s.capacity) none },
     (s.buffer[s.head % s.capacity]?).getD none)

/-- `len`: `tail.saturating_sub(head)`, which is exactly truncated natural
subtraction. -/
def len (s : LockFreeDeque α) : Nat :=
  s.tail - s.head

/-- `is_empty`: `head >= tail`. -/
def is_empty (s : LockFreeDeque α) : Bool :=
  decide (s.tail ≤ s.head)

/-- `is_full`: `tail - head >= capacity`. -/
def is_full (s : LockFreeDeque α) : Bool :=
  decide (s.capacity ≤ s.tail - s.head)

/-- The successful `compare_exchange_weak` on `tail` inside `push_back`, as
an isolated step: the producer claims logical index `s.tail` by advancing
`tail` to `tail + 1`.  The slot write has not happened yet at this point of
the source. -/
def push_claim (s : LockFreeDeque α) : LockFreeDeque α :=
  { s with tail := s.tail + 1 }

/-- The slot write inside `push_back`, as an isolated step: store `value`
into physical position `idx % capacity`, where `idx` is the logical index
the producer claimed. -/
def push_write (s : LockFreeDeque α) (idx : Nat) (value : α) : LockFreeDeque α :=
  { s with buffer := s.buffer.set (idx % s.capacity) (some value) }

/-- One caller-visible operation on the deque. -/
inductive Op (α : Type) where
  | push (value : α)
  | pop

/-- Apply one operation to the state (discarding the returned signal). -/
def stepOp (s : LockFreeDeque α) : Op α → LockFreeDeque α
  | Op.push v => (push_back s v).1
  | Op.pop => (pop_front s).1

/-- Run a sequence of operations from a starting state. -/
def runOps (s : LockFreeDeque α) (ops : List (Op α)) : LockFreeDeque α :=
  ops.foldl stepOp s

/-- Push a list of values one after the other, collecting the results. -/
def pushAll (s : LockFreeDeque α) : List α → LockFreeDeque α × List (Except α Unit)
  | [] => (s, [])
  | v :: vs =>
    let p := push_back s v
    let q := pushAll p.1 vs
    (q.1, p.2 :: q.2)

/-- Pop `n` times in a row, collecting the results. -/
def popN (s : LockFreeDeque α) : Nat → LockFreeDeque α × List (Option α)
  | 0 => (s, [])
  | n + 1 =>
    let p := pop_front s
    let q := popN p.1 n
    (q.1, p.2 :: q.2)

/-- Abstract FIFO queue of the specification's data model: the live contents
at logical indices `head ≤ i < tail` as a plain list; a push appends when
there is room and a pop removes the first element.  This is the abstraction
target of the refinement proofs, not part of the implementation. -/
def specStep (c : Nat) (q : List α) : Op α → List α
  | Op.push v => if q.length < c then q ++ [v] else q
  | Op.pop => q.tail

/-- Abstract queue contents after running `ops` from the empty queue. -/
def specRun (c : Nat) (ops : List (Op α)) : List α :=
  ops.foldl (specStep c) []

/-- Representation invariant relating a deque state to the abstract queue
`l`: the buffer has exactly `capacity` slots, `head ≤ tail`, the occupied
count `tail - head` equals `l.length` and is bounded by `capacity`, and for
every live logical index `head + i` the slot at physical position
`(head + i) % capacity` holds `l`'s `i`-th element. -/
def RepInv (s : LockFreeDeque α) (l : List α) : Prop :=
  s.buffer.length = s.capacity ∧
  s.head ≤ s.tail ∧
  s.tail - s.head = l.length ∧
  l.length ≤ s.capacity ∧
  ∀ i (h : i < l.length), s.buffer[(s.head + i) % s.capacity]? = some (some (l.get ⟨i, h⟩))

/-- Two logical indices less than one period apart map to distinct physical
positions. -/
theorem mod_add_ne (a d c : Nat) (hd : 0 < d) (hdc : d < c) :
    (a + d) % c ≠ a % c := by
  intro h
  have hmod : a ≡ a + d [MOD c] := h.symm
  have hdvd : c ∣ a + d - a := (Nat.modEq_iff_dvd' (Nat.le_add_right a d)).mp hmod
  rw [Nat.add_sub_cancel_left] at hdvd
  exact absurd (Nat.le_of_dvd hd hdvd) (Nat.not_le.mpr hdc)

/-- C4: `push_back` returns the full-signal if and only if the observed
`tail - head` is at least `capacity`, and in that case it hands back exactly
the rejected value and leaves head, tail and every slot unchanged. -/
theorem push_back_full_signal (s : LockFreeDeque Nat) (v : Nat) :
    ((push_back s v).2 = Except.error v ↔ s.capacity ≤ s.tail - s.head) ∧
    (s.capacity ≤ s.tail - s.head → push_back s v = (s, Except.error v)) := by
  refine ⟨⟨?_, ?_⟩, ?_⟩
  · intro h
    by_contra hfull
    simp [push_back, hfull] at h
  · intro h
    simp [push_back, h]
  · intro h
    simp [push_back, h]

/-- Witness for C4 at a concrete full state. -/
theorem push_back_full_signal_witness :
    push_back (LockFreeDeque.mk [some 1, some 2] 0 2 2) 9
      = (LockFreeDeque.mk [some 1, some 2] 0 2 2, Except.error 9) :=
  (push_back_full_signal (LockFreeDeque.mk [some 1, some 2] 0 2 2) 9).2 (by decide)

/-- C5: on an empty state (`head ≥ tail`) any number of repeated `pop_front`
calls all return the empty-signal and leave head, tail and every slot
untouched. -/
theorem pop_front_empty_idempotent (s : LockFreeDeque Nat) (n : Nat)
    (h : s.tail ≤ s.head) :
    popN s n = (s, List.replicate n none) := by
  induction n with
  | zero => simp [popN]
  | succ n ih => simp [popN, pop_front, h, ih, List.replicate_succ]

/-- Witness for C5: three pops on a fresh capacity-2 buffer. -/
theorem pop_front_empty_idempotent_witness :
    popN (with_capacity Nat 2) 3 = (with_capacity Nat 2, List.replicate 3 none) :=
  pop_front_empty_idempotent (with_capacity Nat 2) 3 (by decide)

/-- C6: concrete scenario A on a capacity-2 buffer: push 1 and push 2
succeed; push 3 fails handing back 3 and changing nothing; pop returns 1;
then push 3 succeeds; the remaining pops return 2, 3, and then the
empty-signal. -/
theorem concrete_scenario_A :
    (push_back (with_capacity Nat 2) 1).2 = Except.ok () ∧
    (push_back (runOps (with_capacity Nat 2) [Op.push 1]) 2).2 = Except.ok () ∧
    push_back (runOps (with_capacity Nat 2) [Op.push 1, Op.push 2]) 3
      = (runOps (with_capacity Nat 2) [Op.push 1, Op.push 2], Except.error 3) ∧
    (pop_front (runOps (with_capacity Nat 2)
        [Op.push 1, Op.push 2, Op.push 3])).2 = some 1 ∧
    (push_back (runOps (with_capacity Nat 2)
        [Op.push 1, Op.push 2, Op.push 3, Op.pop]) 3).2 = Except.ok () ∧
    (pop_front (runOps (with_capacity Nat 2)
        [Op.push 1, Op.push 2, Op.push 3, Op.pop, Op.push 3])).2 = some 2 ∧
    (pop_front (runOps (with_capacity Nat 2)
        [Op.push 1, Op.push 2, Op.push 3, Op.pop, Op.push 3, Op.pop])).2 = some 3 ∧
    (pop_front (runOps (with_capacity Nat 2)
        [Op.push 1, Op.push 2, Op.push 3, Op.pop, Op.push 3, Op.pop, Op.pop])).2 = none :=
  ⟨rfl, rfl, rfl, rfl, rfl, rfl, rfl, rfl⟩

/-- Helper for C7: a capacity-0 deque never changes state under any
operation sequence. -/
theorem runOps_capacity_zero (ops : List (Op Nat)) :
    runOps (with_capacity Nat 0) ops = with_capacity Nat 0 := by
  induction ops with
  | nil => rfl
  | cons op ops ih =>
    have hstep : stepOp (with_capacity Nat 0) op = with_capacity Nat 0 := by
      cases op with
      | push v => simp [stepOp, push_back, with_capacity]
      | pop => simp [stepOp, pop_front, with_capacity]
    calc runOps (with_capacity Nat 0) (op :: ops)
        = runOps (stepOp (with_capacity Nat 0) op) ops := rfl
      _ = runOps (with_capacity Nat 0) ops := by rw [hstep]
      _ = with_capacity Nat 0 := ih

/-- C7: a capacity-0 buffer is simultaneously empty and full after any
sequence of operations; every `push_back` on it returns the full-signal
handing the value back, and every `pop_front` returns the empty-signal,
with the state never changing. -/
theorem capacity_zero_degenerate (ops : List (Op Nat)) (v : Nat) :
    is_empty (runOps (with_capacity Nat 0) ops) = true ∧
    is_full (runOps (with_capacity Nat 0) ops) = true ∧
    push_back (runOps (with_capacity Nat 0) ops) v
      = (runOps (with_capacity Nat 0) ops, Except.error v) ∧
    pop_front (runOps (with_capacity Nat 0) ops)
      = (runOps (with_capacity Nat 0) ops, none) := by
  rw [runOps_capacity_zero]
  refine ⟨rfl, rfl, ?_, rfl⟩
  simp [push_back, with_capacity]

/-- C10: frame property of the two mutators.  A successful `push_back`
increments `tail` by exactly 1, keeps `head` and `capacity`, and writes only
the single slot `(old tail) % capacity`; a successful `pop_front` increments
`head` by exactly 1, keeps `tail` and `capacity`, and empties only the
single slot `(old head) % capacity`.  All other slots keep their contents. -/
theorem push_pop_frame (s : LockFreeDeque Nat) (v : Nat) :
    (s.tail - s.head < s.capacity →
      (push_back s v).1.head = s.head ∧
      (push_back s v).1.tail = s.tail + 1 ∧
      (push_back s v).1.capacity = s.capacity ∧
      (push_back s v).1.buffer = s.buffer.set (s.tail % s.capacity) (some v) ∧
      ∀ p, p ≠ s.tail % s.capacity → (push_back s v).1.buffer[p]? = s.buffer[p]?) ∧
    (s.head < s.tail →
      (pop_front s).1.head = s.head + 1 ∧
      (pop_front s).1.tail = s.tail ∧
      (pop_front s).1.capacity = s.capacity ∧
      (pop_front s).1.buffer = s.buffer.set (s.head % s.capacity) none ∧
      ∀ p, p ≠ s.head % s.capacity → (pop_front s).1.buffer[p]? = s.buffer[p]?) := by
  constructor
  · intro h
    have hg : ¬ s.capacity ≤ s.tail - s.head := Nat.not_le.mpr h
    refine ⟨?_, ?_, ?_, ?_, ?_⟩ <;> simp only [push_back, if_neg hg]
    intro p hp
    exact List.getElem?_set_ne (Ne.symm hp)
  · intro h
    have hg : ¬ s.tail ≤ s.head := Nat.not_le.mpr h
    refine ⟨?_, ?_, ?_, ?_, ?_⟩ <;> simp only [pop_front, if_neg hg]
    intro p hp
    exact List.getElem?_set_ne (Ne.symm hp)

/-- Witness for C10 at a concrete state with one occupied slot. -/
theorem push_pop_frame_witness :
    (push_back (LockFreeDeque.mk [some 7, none] 0 1 2) 9).1.buffer
      = [some 7, none].set (1 % 2) (some 9) ∧
    (pop_front (LockFreeDeque.mk [some 7, none] 0 1 2)).1.buffer
      = [some 7, none].set (0 % 2) none :=
  ⟨((push_pop_frame (LockFreeDeque.mk [some 7, none] 0 1 2) 9).1 (by decide)).2.2.2.1,
   ((push_pop_frame (LockFreeDeque.mk [some 7, none] 0 1 2) 9).2 (by decide)).2.2.2.1⟩

/-- C3: the source violates the visibility requirement.  `push_back`
decomposes into the CAS step `push_claim` followed by the slot write
`push_write` (first conjunct, tying the split to the source).  In the
interleaving where a producer on a capacity-1 buffer has won the tail CAS
for logical index 0 but not yet written the slot, a consumer running
`pop_front` to completion wins the head CAS for index 0 (head becomes 1)
yet observes the empty placeholder `none` instead of the producer's value;
when the producer's write then lands, the value 42 is stranded in a slot
that no pop will ever return (head = tail = 1). -/
theorem visibility_race :
    (∀ (s : LockFreeDeque Nat) (v : Nat), s.tail - s.head < s.capacity →
        push_back s v = (push_write (push_claim s) s.tail v, Except.ok ())) ∧
    (pop_front (push_claim (with_capacity Nat 1))).2 = none ∧
    (pop_front (push_claim (with_capacity Nat 1))).1.head = 1 ∧
    push_write (pop_front (push_claim (with_capacity Nat 1))).1 0 42
      = LockFreeDeque.mk [some 42] 1 1 1 := by
  refine ⟨?_, rfl, rfl, rfl⟩
  intro s v h
  have hg : ¬ s.capacity ≤ s.tail - s.head := Nat.not_le.mpr h
  simp only [push_back, if_neg hg, push_write, push_claim]

/-- Witness for C3's universally quantified decomposition conjunct at a
concrete state. -/
theorem visibility_race_witness :
    push_back (with_capacity Nat 1) 5
      = (push_write (push_claim (with_capacity Nat 1)) (with_capacity Nat 1).tail 5,
         Except.ok ()) ∧
    (pop_front (push_claim (with_capacity Nat 1))).2 = none :=
  ⟨visibility_race.1 (with_capacity Nat 1) 5 (by decide), visibility_race.2.1⟩

/-- A freshly constructed deque represents the empty abstract queue. -/
theorem repInv_init (α : Type) (c : Nat) : RepInv (with_capacity α c) [] := by
  refine ⟨by simp [with_capacity], Nat.le_refl 0, rfl, Nat.zero_le c, ?_⟩
  intro i h
  exact absurd h (Nat.not_lt_zero i)

/-- A push on a non-full state succeeds, advances `tail`, writes the claimed
slot, and extends the abstract queue by the pushed value. -/
theorem repInv_push (s : LockFreeDeque α) (l : List α) (v : α)
    (hr : RepInv s l) (hl : l.length < s.capacity) :
    push_back s v
      = ({ s with
            tail := s.tail + 1
            buffer := s.buffer.set (s.tail % s.capacity) (some v) },
         Except.ok ()) ∧
    RepInv (push_back s v).1 (l ++ [v]) := by
  obtain ⟨hlen, hht, hth, hlc, hslots⟩ := hr
  have hg : ¬ s.capacity ≤ s.tail - s.head := by omega
  have hcpos : 0 < s.capacity := Nat.lt_of_le_of_lt (Nat.zero_le _) hl
  have htl : s.tail = s.head + l.length := by omega
  have heq : push_back s v
      = ({ s with
            tail := s.tail + 1
            buffer := s.buffer.set (s.tail % s.capacity) (some v) },
         Except.ok ()) := by
    simp only [push_back, if_neg hg]
  refine ⟨heq, ?_⟩
  have h1 : (push_back s v).1
      = { s with
            tail := s.tail + 1
            buffer := s.buffer.set (s.tail % s.capacity) (some v) } := by
    rw [heq]
  rw [h1]
  refine ⟨?_, ?_, ?_, ?_, ?_⟩
  · show (s.buffer.set (s.tail % s.capacity) (some v)).length = s.capacity
    simp [hlen]
  · show s.head ≤ s.tail + 1
    omega
  · show s.tail + 1 - s.head = (l ++ [v]).length
    simp only [List.length_append, List.length_cons, List.length_nil]
    omega
  · show (l ++ [v]).length ≤ s.capacity
    simp only [List.length_append, List.length_cons, List.length_nil]
    omega
  · intro i h
    have hlt2 : i < l.length + 1 := by simpa using h
    show (s.buffer.set (s.tail % s.capacity) (some v))[(s.head + i) % s.capacity]?
        = some (some ((l ++ [v]).get ⟨i, h⟩))
    rcases Nat.lt_succ_iff_lt_or_eq.mp hlt2 with hi | hi
    · have hd1 : 0 < l.length - i := by omega
      have hd2 : l.length - i < s.capacity := by omega
      have hne : s.tail % s.capacity ≠ (s.head + i) % s.capacity := by
        have harr : s.tail = s.head + i + (l.length - i) := by omega
        rw [harr]
        exact mod_add_ne (s.head + i) (l.length - i) s.capacity hd1 hd2
      rw [List.getElem?_set_ne hne, hslots i hi]
      have hget : (l ++ [v]).get ⟨i, h⟩ = l.get ⟨i, hi⟩ := by
        simp [List.get_eq_getElem, List.getElem_append_left hi]
      rw [hget]
    · have hpos : (s.head + i) % s.capacity = s.tail % s.capacity := by
        rw [htl, hi]
      rw [hpos]
      have hlt : s.tail % s.capacity < s.buffer.length := by
        rw [hlen]; exact Nat.mod_lt _ hcpos
      rw [List.getElem?_set_self hlt]
      have hget : (l ++ [v]).get ⟨i, h⟩ = v := by
        simp [List.get_eq_getElem, hi]
      rw [hget]

/-- A push on a full state returns the full signal and changes nothing. -/
theorem repInv_push_full (s : LockFreeDeque α) (l : List α) (v : α)
    (hr : RepInv s l) (hl : s.capacity ≤ l.length) :
    push_back s v = (s, Except.error v) := by
  obtain ⟨_, hht, hth, _, _⟩ := hr
  have hg : s.capacity ≤ s.tail - s.head := by omega
  simp [push_back, hg]

/-- A pop on an empty state returns the empty signal and changes nothing. -/
theorem repInv_pop_empty (s : LockFreeDeque α) (hr : RepInv s []) :
    pop_front s = (s, none) := by
  obtain ⟨_, hht, hth, _, _⟩ := hr
  simp only [List.length_nil] at hth
  have hg : s.tail ≤ s.head := by omega
  simp [pop_front, hg]

/-- A pop on a non-empty state returns the oldest value, advances `head`,
empties the claimed slot, and removes the first element of the abstract
queue. -/
theorem repInv_pop (s : LockFreeDeque α) (a : α) (l : List α)
    (hr : RepInv s (a :: l)) :
    pop_front s
      = ({ s with
            head := s.head + 1
            buffer := s.buffer.set (s.head % s.capacity) none },
         some a) ∧
    RepInv (pop_front s).1 l := by
  obtain ⟨hlen, hht, hth, hlc, hslots⟩ := hr
  simp only [List.length_cons] at hth hlc
  have htl : s.tail = s.head + (l.length + 1) := by omega
  have hg : ¬ s.tail ≤ s.head := by omega
  have hval : (s.buffer[s.head % s.capacity]?).getD none = some a := by
    have h0 := hslots 0 (by simp)
    simp only [Nat.add_zero] at h0
    rw [h0]
    rfl
  have heq : pop_front s
      = ({ s with
            head := s.head + 1
            buffer := s.buffer.set (s.head % s.capacity) none },
         some a) := by
    simp only [pop_front, if_neg hg, hval]
  refine ⟨heq, ?_⟩
  have h1 : (pop_front s).1
      = { s with
            head := s.head + 1
            buffer := s.buffer.set (s.head % s.capacity) none } := by
    rw [heq]
  rw [h1]
  refine ⟨?_, ?_, ?_, ?_, ?_⟩
  · show (s.buffer.set (s.head % s.capacity) none).length = s.capacity
    simp [hlen]
  · show s.head + 1 ≤ s.tail
    omega
  · show s.tail - (s.head + 1) = l.length
    omega
  · show l.length ≤ s.capacity
    omega
  · intro i h
    have hd1 : 0 < 1 + i := by omega
    have hd2 : 1 + i < s.capacity := by omega
    have hne : s.head % s.capacity ≠ (s.head + 1 + i) % s.capacity := by
      have harr : s.head + 1 + i = s.head + (1 + i) := by omega
      rw [harr]
      exact (mod_add_ne s.head (1 + i) s.capacity hd1 hd2).symm
    show (s.buffer.set (s.head % s.capacity) none)[(s.head + 1 + i) % s.capacity]?
        = some (some (l.get ⟨i, h⟩))
    rw [List.getElem?_set_ne hne]
    have hidx : s.head + 1 + i = s.head + (i + 1) := by omega
    rw [hidx]
    have hsucc : i + 1 < (a :: l).length := by simp; omega
    rw [hslots (i + 1) hsucc]
    rfl

/-- One operation preserves the refinement to the abstract queue and the
capacity field. -/
theorem repInv_step (c : Nat) (s : LockFreeDeque α) (l : List α) (op : Op α)
    (hr : RepInv s l) (hc : s.capacity = c) :
    RepInv (stepOp s op) (specStep c l op) ∧ (stepOp s op).capacity = c := by
  cases op with
  | push v =>
    by_cases hl : l.length < c
    · have hp := repInv_push s l v hr (by omega)
      refine ⟨?_, ?_⟩
      · simpa [stepOp, specStep, hl] using hp.2
      · show (push_back s v).1.capacity = c
        rw [hp.1]
        exact hc
    · have heq := repInv_push_full s l v hr (by omega)
      constructor
      · simpa [stepOp, specStep, hl, heq] using hr
      · simp [stepOp, heq, hc]
  | pop =>
    cases l with
    | nil =>
      have heq := repInv_pop_empty s hr
      constructor
      · simpa [stepOp, specStep, heq] using hr
      · simp [stepOp, heq, hc]
    | cons a l =>
      have hp := repInv_pop s a l hr
      refine ⟨?_, ?_⟩
      · simpa [stepOp, specStep] using hp.2
      · show (pop_front s).1.capacity = c
        rw [hp.1]
        exact hc

/-- Running operations preserves the refinement, from any represented
state. -/
theorem repInv_runOps_aux (c : Nat) (ops : List (Op α)) :
    ∀ (s : LockFreeDeque α) (l : List α), RepInv s l → s.capacity = c →
      RepInv (runOps s ops) (ops.foldl (specStep c) l) ∧
      (runOps s ops).capacity = c := by
  induction ops with
  | nil => exact fun s l hr hc => ⟨hr, hc⟩
  | cons op ops ih =>
    intro s l hr hc
    have h := repInv_step c s l op hr hc
    exact ih (stepOp s op) (specStep c l op) h.1 h.2

/-- Every reachable state of a capacity-`c` deque represents the abstract
queue computed by the specification model. -/
theorem repInv_runOps (α : Type) (c : Nat) (ops : List (Op α)) :
    RepInv (runOps (with_capacity α c) ops) (specRun c ops) ∧
    (runOps (with_capacity α c) ops).capacity = c :=
  repInv_runOps_aux c ops (with_capacity α c) [] (repInv_init α c) rfl

/-- Pushing a list of values into a represented state with enough room
succeeds throughout and appends the values to the abstract queue. -/
theorem repInv_pushAll (vs : List α) :
    ∀ (s : LockFreeDeque α) (l : List α), RepInv s l →
      l.length + vs.length ≤ s.capacity →
      (pushAll s vs).2 = vs.map (fun _ => Except.ok ()) ∧
      RepInv (pushAll s vs).1 (l ++ vs) := by
  induction vs with
  | nil =>
    intro s l hr h
    simpa [pushAll] using hr
  | cons v vs ih =>
    intro s l hr h
    have hl : l.length < s.capacity := by
      simp only [List.length_cons] at h
      omega
    have hp := repInv_push s l v hr hl
    have hcap : (push_back s v).1.capacity = s.capacity := by rw [hp.1]
    have harg : (l ++ [v]).length + vs.length ≤ (push_back s v).1.capacity := by
      rw [hcap]
      simp only [List.length_append, List.length_cons, List.length_nil] at h ⊢
      omega
    have hih := ih (push_back s v).1 (l ++ [v]) hp.2 harg
    constructor
    · have e1 : (pushAll s (v :: vs)).2
          = (push_back s v).2 :: (pushAll (push_back s v).1 vs).2 := rfl
      rw [e1, hih.1, hp.1]
      rfl
    · have e2 : (pushAll s (v :: vs)).1 = (pushAll (push_back s v).1 vs).1 := rfl
      have ha : l ++ [v] ++ vs = l ++ v :: vs := by simp
      rw [e2, ← ha]
      exact hih.2

/-- Popping exactly the length of the abstract queue returns its contents in
order and leaves the empty queue. -/
theorem repInv_popN (l : List α) :
    ∀ s : LockFreeDeque α, RepInv s l →
      (popN s l.length).2 = l.map some ∧ RepInv (popN s l.length).1 [] := by
  induction l with
  | nil => exact fun s hr => ⟨rfl, hr⟩
  | cons a l ih =>
    intro s hr
    have hp := repInv_pop s a l hr
    have hih := ih (pop_front s).1 hp.2
    constructor
    · have e1 : (popN s (a :: l).length).2
          = (pop_front s).2 :: (popN (pop_front s).1 l.length).2 := rfl
      rw [e1, hih.1, hp.1]
      rfl
    · have e2 : (popN s (a :: l).length).1 = (popN (pop_front s).1 l.length).1 := rfl
      rw [e2]
      exact hih.2

/-- C1: FIFO integrity.  On a capacity-`c` buffer (`c > 0`), after any prior
operation sequence that leaves it empty (so at every logical index range,
including after the indices have wrapped the physical capacity many times),
pushing any `N ≤ c` values succeeds with no interleaved failures, and the
next `N` pops return exactly those values in the same order. -/
theorem fifo_integrity (c : Nat) (ops : List (Op Nat)) (vs : List Nat)
    (_hc : 0 < c)
    (hemp : is_empty (runOps (with_capacity Nat c) ops) = true)
    (hlen : vs.length ≤ c) :
    (pushAll (runOps (with_capacity Nat c) ops) vs).2
      = vs.map (fun _ => Except.ok ()) ∧
    (popN (pushAll (runOps (with_capacity Nat c) ops) vs).1 vs.length).2
      = vs.map some := by
  obtain ⟨hr, hcap⟩ := repInv_runOps Nat c ops
  have hnil : specRun c ops = [] := by
    obtain ⟨hlen2, hht, hth, _, _⟩ := hr
    have hle : (runOps (with_capacity Nat c) ops).tail
        ≤ (runOps (with_capacity Nat c) ops).head := of_decide_eq_true hemp
    exact List.eq_nil_of_length_eq_zero (by omega)
  rw [hnil] at hr
  have harg : List.length ([] : List Nat) + vs.length
      ≤ (runOps (with_capacity Nat c) ops).capacity := by
    rw [hcap]
    simpa using hlen
  have hpush := repInv_pushAll vs (runOps (with_capacity Nat c) ops) [] hr harg
  have hrep : RepInv (pushAll (runOps (with_capacity Nat c) ops) vs).1 vs := by
    have : ([] : List Nat) ++ vs = vs := by simp
    rw [← this]
    exact hpush.2
  have hpop := repInv_popN vs (pushAll (runOps (with_capacity Nat c) ops) vs).1 hrep
  exact ⟨hpush.1, hpop.1⟩

/-- Operation sequence of the specification's scenario B: on a capacity-3
buffer, ten rounds of pushing `i`, `i + 1`, `i + 2` and popping three
times. -/
def scenario_B_ops : List (Op Nat) :=
  ((List.range 10).map (fun i =>
    [Op.push i, Op.push (i + 1), Op.push (i + 2), Op.pop, Op.pop, Op.pop])).flatten

set_option maxRecDepth 4096 in
/-- Witness for C1 on a capacity-3 buffer after the ten wraparound rounds of
scenario B. -/
theorem fifo_integrity_witness :
    (pushAll (runOps (with_capacity Nat 3) scenario_B_ops) [10, 11, 12]).2
      = [10, 11, 12].map (fun _ => Except.ok ()) ∧
    (popN (pushAll (runOps (with_capacity Nat 3) scenario_B_ops) [10, 11, 12]).1
        [10, 11, 12].length).2
      = [10, 11, 12].map some :=
  fifo_integrity 3 scenario_B_ops [10, 11, 12] (by decide) (by decide) (by decide)

/-- C2: index-state invariant.  From `head = tail = 0`, after every sequence
of operations `tail ≥ head` and `tail - head ≤ capacity` hold, and every
single operation either leaves both counters unchanged or increments exactly
one of them by 1 (so both counters are monotonically non-decreasing and
never move backwards or wrap). -/
theorem index_state_invariant (c : Nat) (ops : List (Op Nat)) :
    ((runOps (with_capacity Nat c) ops).head ≤ (runOps (with_capacity Nat c) ops).tail ∧
     (runOps (with_capacity Nat c) ops).tail - (runOps (with_capacity Nat c) ops).head ≤ c) ∧
    ∀ (s : LockFreeDeque Nat) (op : Op Nat),
      ((stepOp s op).head = s.head ∧ (stepOp s op).tail = s.tail) ∨
      ((stepOp s op).head = s.head + 1 ∧ (stepOp s op).tail = s.tail) ∨
      ((stepOp s op).head = s.head ∧ (stepOp s op).tail = s.tail + 1) := by
  constructor
  · obtain ⟨⟨hlen, hht, hth, hlc, _⟩, hcap⟩ := repInv_runOps Nat c ops
    exact ⟨hht, by omega⟩
  · intro s op
    cases op with
    | push v =>
      by_cases hg : s.capacity ≤ s.tail - s.head
      · left
        simp [stepOp, push_back, hg]
      · right; right
        simp [stepOp, push_back, hg]
    | pop =>
      by_cases hg : s.tail ≤ s.head
      · left
        simp [stepOp, pop_front, hg]
      · right; left
        simp [stepOp, pop_front, hg]

/-- C8: `len` returns `tail - head` (the saturating subtraction is exact on
reachable states), `is_empty` returns `head ≥ tail`, `is_full` returns
`tail - head ≥ capacity`, and on every reachable state `len` equals the
number of values held, i.e. the length of the abstract queue. -/
theorem introspection_snapshot (c : Nat) (ops : List (Op Nat)) :
    len (runOps (with_capacity Nat c) ops)
      = (runOps (with_capacity Nat c) ops).tail - (runOps (with_capacity Nat c) ops).head ∧
    is_empty (runOps (with_capacity Nat c) ops)
      = decide ((runOps (with_capacity Nat c) ops).tail
          ≤ (runOps (with_capacity Nat c) ops).head) ∧
    is_full (runOps (with_capacity Nat c) ops)
      = decide (c ≤ (runOps (with_capacity Nat c) ops).tail
          - (runOps (with_capacity Nat c) ops).head) ∧
    len (runOps (with_capacity Nat c) ops) = (specRun c ops).length := by
  obtain ⟨⟨hlen, hht, hth, hlc, _⟩, hcap⟩ := repInv_runOps Nat c ops
  refine ⟨rfl, rfl, ?_, ?_⟩
  · simp only [is_full, hcap]
  · simp only [len]
    omega

/-- C9: indexing safety.  On every reachable state: whenever the full-check
of `push_back` passes, the capacity is positive (no modulo by zero) and the
slot index `tail % capacity` is inside the buffer; whenever the empty-check
of `pop_front` passes, likewise for `head % capacity`; and `tail ≥ head`
always, so the subtraction `tail - head` never underflows. -/
theorem indexing_safety (c : Nat) (ops : List (Op Nat)) :
    ((runOps (with_capacity Nat c) ops).tail - (runOps (with_capacity Nat c) ops).head
        < (runOps (with_capacity Nat c) ops).capacity →
      0 < (runOps (with_capacity Nat c) ops).capacity ∧
      (runOps (with_capacity Nat c) ops).tail % (runOps (with_capacity Nat c) ops).capacity
        < (runOps (with_capacity Nat c) ops).buffer.length) ∧
    ((runOps (with_capacity Nat c) ops).head < (runOps (with_capacity Nat c) ops).tail →
      0 < (runOps (with_capacity Nat c) ops).capacity ∧
      (runOps (with_capacity Nat c) ops).head % (runOps (with_capacity Nat c) ops).capacity
        < (runOps (with_capacity Nat c) ops).buffer.length) ∧
    (runOps (with_capacity Nat c) ops).head ≤ (runOps (with_capacity Nat c) ops).tail := by
  obtain ⟨⟨hlen, hht, hth, hlc, _⟩, hcap⟩ := repInv_runOps Nat c ops
  refine ⟨?_, ?_, hht⟩
  · intro h
    have hcpos : 0 < (runOps (with_capacity Nat c) ops).capacity := by omega
    exact ⟨hcpos, by rw [hlen]; exact Nat.mod_lt _ hcpos⟩
  · intro h
    have hcpos : 0 < (runOps (with_capacity Nat c) ops).capacity := by omega
    exact ⟨hcpos, by rw [hlen]; exact Nat.mod_lt _ hcpos⟩

/-- Witness for C9 after one push on a capacity-2 buffer, where both the
full-check and the empty-check pass. -/
theorem indexing_safety_witness :
    (0 < (runOps (with_capacity Nat 2) [Op.push 5]).capacity ∧
     (runOps (with_capacity Nat 2) [Op.push 5]).tail
         % (runOps (with_capacity Nat 2) [Op.push 5]).capacity
       < (runOps (with_capacity Nat 2) [Op.push 5]).buffer.length) ∧
    (0 < (runOps (with_capacity Nat 2) [Op.push 5]).capacity ∧
     (runOps (with_capacity Nat 2) [Op.push 5]).head
         % (runOps (with_capacity Nat 2) [Op.push 5]).capacity
       < (runOps (with_capacity Nat 2) [Op.push 5]).buffer.length) :=
  ⟨(indexing_safety 2 [Op.push 5]).1 (by decide),
   (indexing_safety 2 [Op.push 5]).2.1 (by decide)⟩
